import Mathlib

/-!
Verification development for the hierarchical active-learning sampler
(`HierarchicalSampler.py`).  The binary cluster tree, the per-node revealed
statistics, the path resolver, the selector / leaf-picking procedure and the
pruning-refinement engine are embedded shallowly; random draws are modelled by
explicit streams of choice indices, and float arithmetic is modelled exactly
over ℚ (control flow) and ℝ (the confidence-bound formulas).
-/

namespace HSamp

/-!
## Definitions

Random draws (the weighted `np.random.choice` over the pruning and the two
`random.choice` calls over `sample_ids`) are modelled by explicit streams of
choice indices, so every statement quantifies over all possible draws.  The
admissibility test of `_update` is a parameter of the step function — its
value in the program is the ℝ-valued `isAdmissibleR` over the just-updated
statistics — and the state-machine statements hold for every test.
-/

/-- Binary cluster tree produced by `_construct_tree`: one leaf per data point
(leaf ids `0..N-1`) and one internal node per agglomerative merge. -/
inductive BTree where
  | lf (id : Nat)
  | nd (id : Nat) (l : BTree) (r : BTree)
deriving DecidableEq

/-- The id stored at the root of a subtree. -/
def rootId : BTree → Nat
  | .lf i => i
  | .nd i _ _ => i

/-- The list `node.subtree_leaves` as materialised by the `visit` pass of
`_compute_weights`: a leaf contributes itself, an internal node the
concatenation of its left then right child lists. -/
def leavesL : BTree → List Nat
  | .lf i => [i]
  | .nd _ l r => leavesL l ++ leavesL r

/-- Independent recount of the leaves below a node. -/
def leafCount : BTree → Nat
  | .lf _ => 1
  | .nd _ l r => leafCount l + leafCount r

/-- Whether `s` is a proper subtree of `t`, i.e. the subtree hanging off a non-root
node of `t`. -/
def isStrictSub (s : BTree) : BTree → Bool
  | .lf _ => false
  | .nd _ l r => decide (s = l) || decide (s = r) || isStrictSub s l || isStrictSub s r

/-- Normalised node weight as set by `_compute_weights`:
`len(node.subtree_leaves) / num_leaves` (float division modelled exactly
over ℚ). -/
def weightQ (N : Nat) (s : BTree) : ℚ := ((leavesL s).length : ℚ) / (N : ℚ)

/-- The 4-leaf scenario tree: merges `(0,1) -> 4`, `(2,3) -> 5`,
`(4,5) -> 6`. -/
def scenTree : BTree := .nd 6 (.nd 4 (.lf 0) (.lf 1)) (.nd 5 (.lf 2) (.lf 3))

/-- Dictionary read with default 0. -/
def dGet (d : List (Int × Nat)) (l : Int) : Nat :=
  match d with
  | [] => 0
  | e :: rest => if e.1 = l then e.2 else dGet rest l

/-- Dictionary membership (`label in class_to_instances`). -/
def dMem (d : List (Int × Nat)) (l : Int) : Bool :=
  match d with
  | [] => false
  | e :: rest => decide (e.1 = l) || dMem rest l

/-- The increment `class_to_instances[label] += 1`. -/
def dInc (d : List (Int × Nat)) (l : Int) : List (Int × Nat) :=
  match d with
  | [] => [(l, 1)]
  | e :: rest => if e.1 = l then (e.1, e.2 + 1) :: rest else e :: dInc rest l

/-- The total `sum(class_to_instances.values())`. -/
def sumVals (d : List (Int × Nat)) : Nat := (d.map (fun e => e.2)).sum

/-- The estimate `p_vl`: `0`, overwritten with `count / num_revealed` when
`label in class_to_instances`. -/
noncomputable def pSrc (d : List (Int × Nat)) (n : Nat) (l : Int) : ℝ :=
  if dMem d l then (dGet d l : ℝ) / (n : ℝ) else 0

/-- The radius `delta`: `0`, overwritten with `1/n + sqrt(p*(1-p)/n)` when `n > 0`. -/
noncomputable def deltaSrc (d : List (Int × Nat)) (n : Nat) (l : Int) : ℝ :=
  if 0 < n then 1 / (n : ℝ) + Real.sqrt (pSrc d n l * (1 - pSrc d n l) / (n : ℝ))
  else 0

/-- The bound `p_LB`: `0` when `len(class_to_instances) == 0`, else `max(p - delta, 0)`. -/
noncomputable def pLB (d : List (Int × Nat)) (n : Nat) (l : Int) : ℝ :=
  if d = [] then 0 else max (pSrc d n l - deltaSrc d n l) 0

/-- The bound `p_UB`: `1` when `len(class_to_instances) == 0`, else `min(p + delta, 1)`. -/
noncomputable def pUB (d : List (Int × Nat)) (n : Nat) (l : Int) : ℝ :=
  if d = [] then 1 else min (pSrc d n l + deltaSrc d n l) 1

/-- The spec's estimate: `count/num_revealed` if `num_revealed > 0`, else 0. -/
noncomputable def pSpec (d : List (Int × Nat)) (n : Nat) (l : Int) : ℝ :=
  if 0 < n then (dGet d l : ℝ) / (n : ℝ) else 0

/-- The spec's confidence radius, phrased with the spec's estimate. -/
noncomputable def deltaSpec (d : List (Int × Nat)) (n : Nat) (l : Int) : ℝ :=
  if 0 < n then 1 / (n : ℝ) + Real.sqrt (pSpec d n l * (1 - pSpec d n l) / (n : ℝ))
  else 0

/-- The spec's lower bound, with the zero-observation case phrased on `n`. -/
noncomputable def pLBSpec (d : List (Int × Nat)) (n : Nat) (l : Int) : ℝ :=
  if n = 0 then 0 else max (pSpec d n l - deltaSpec d n l) 0

/-- The spec's upper bound, with the zero-observation case phrased on `n`. -/
noncomputable def pUBSpec (d : List (Int × Nat)) (n : Nat) (l : Int) : ℝ :=
  if n = 0 then 1 else min (pSpec d n l + deltaSpec d n l) 1

/-- The running minimum `min_other` of `is_admissible`: starts at
`float(inf)` (modelled as `none`), and for every label `lp != label` takes
the minimum with `1 - p_vl_UB[(v, lp)]`. -/
noncomputable def minOther (d : List (Int × Nat)) (n : Nat) (labels : List Int)
    (l : Int) : Option ℝ :=
  labels.foldl
    (fun acc lp =>
      if lp = l then acc
      else
        match acc with
        | none => some (1 - pUB d n lp)
        | some m => some (min m (1 - pUB d n lp)))
    none

/-- The test `is_admissible(v, label)`: `1 - lb < beta * min_other`.  When no other
label exists, `min_other` is still the initial `float(inf)` and the strict
comparison holds (the sampler's `beta` is the positive constant 2.0). -/
noncomputable def isAdmissibleR (beta : ℝ) (labels : List Int)
    (d : List (Int × Nat)) (n : Nat) (l : Int) : Prop :=
  match minOther d n labels l with
  | none => True
  | some m => 1 - pLB d n l < beta * m

/-- The `while cur != v_id` loop of `_get_upward_path`. -/
def getUpwardPathAux (par : Nat → Option Nat) (vId : Nat) :
    Nat → Nat → List Nat → Nat → Option (List Nat)
  | _, _, _, 0 => none
  | cur, p, trail, fuel + 1 =>
    if cur = vId then some trail
    else getUpwardPathAux par vId p ((par p).getD p) (trail ++ [p]) fuel

/-- The call `_get_upward_path(z_id, v_id)`; `none` on the initial
`self.nodes[z].parent.id` when `z` has no parent (uncaught attribute error),
or when the loop is still running after `fuel` iterations. -/
def getUpwardPath (par : Nat → Option Nat) (zId vId : Nat) (fuel : Nat) :
    Option (List Nat) :=
  match par zId with
  | none => none
  | some p => getUpwardPathAux par vId zId p [zId] fuel

/-- Parent map of the scenario tree. -/
def scenPar : Nat → Option Nat
  | 0 => some 4
  | 1 => some 4
  | 2 => some 5
  | 3 => some 5
  | 4 => some 6
  | 5 => some 6
  | _ => none

/-- Predicate `ChainTo par v cs`: `cs` is a nonempty upward parent chain whose last
element is `v` and no earlier element is `v` (i.e. `v` is a true ancestor of
the head, reached for the first time at the end of `cs`). -/
inductive ChainTo (par : Nat → Option Nat) (v : Nat) : List Nat → Prop
  | last : ChainTo par v [v]
  | step (a b : Nat) (rest : List Nat) (hne : a ≠ v) (hpar : par a = some b)
      (htail : ChainTo par v (b :: rest)) : ChainTo par v (a :: b :: rest)

/-- The estimate `p_vl` recomputed from a node's statistics, over ℚ (exact model of the
float division); feeds the score computation of `bottom_up_compute`. -/
def pQ (d : List (Int × Nat)) (n : Nat) (l : Int) : ℚ :=
  if dMem d l then (dGet d l : ℚ) / (n : ℚ) else 0

/-- The penalty `epsilon_tilda_vl`: `1 - p_vl` for admissible pairs, else the maximal
penalty 1. -/
def epsQ (adm : Nat → Int → Bool) (p : Nat → Int → ℚ) (v : Nat) (l : Int) : ℚ :=
  if adm v l then 1 - p v l else 1

/-- Python's `min(..., key=...)`: the first element attaining the minimal
key. -/
def argminFirst (f : Int → ℚ) : List Int → Int
  | [] => 0
  | x :: xs => xs.foldl (fun b c => if f c < f b then c else b) x

/-- The value `s_v` of `bottom_up_compute` at a node: the score and the tentative
sub-pruning, cells stored as subtrees paired with their predicted label.
`adm` is the admissible set after the current additions and `p` the
empirical estimate.  The children ratio `child.weight / node.weight` of the
source equals `leafCount child / leafCount node` and is modelled exactly so
over ℚ. -/
def sV (adm : Nat → Int → Bool) (p : Nat → Int → ℚ) (labels : List Int) :
    BTree → ℚ × List (BTree × Int)
  | .lf i =>
    let bl := argminFirst (epsQ adm p i) labels
    (epsQ adm p i bl, [(.lf i, bl)])
  | .nd i l r =>
    let sl := sV adm p labels l
    let sr := sV adm p labels r
    let bl := argminFirst (epsQ adm p i) labels
    let bs := epsQ adm p i bl
    if labels.any (fun lab => adm i lab) then
      let w : ℚ := (leafCount (.nd i l r) : ℚ)
      let cscore := (leafCount l : ℚ) / w * sl.1 + (leafCount r : ℚ) / w * sr.1
      if cscore < bs then (cscore, sl.2 ++ sr.2)
      else (bs, [(.nd i l r, bl)])
    else (bs, [(.nd i l r, bl)])

/-- The leaves covered by a pruning, cell by cell. -/
def pruningLeaves (P : List (BTree × Int)) : List Nat :=
  P.flatMap (fun c => leavesL c.1)

/-- Fixed sampler data: the cluster tree, the number `k` of originally
labeled points (`_is_unlabeled(id)` is `id >= k`), the merged label vector
`y_merged`, and the known label set `self.labels`. -/
structure Glob where
  t : BTree
  k : Nat
  y : Nat → Int
  labels : List Int

/-- Mutable sampler state: the revealed set, the admissible set, per-node
`class_to_instances` and `num_revealed`, the active pruning (cells stored as
subtrees paired with their predicted label), and the tuning flag. -/
structure SState where
  revealed : Finset Nat
  admissible : Finset (Nat × Int)
  dCnt : Nat → List (Int × Nat)
  nRev : Nat → Nat
  pruning : List (BTree × Int)
  tuning : Bool

/-- The leaf scan of `_pick_sample_id_from_node`: walk `subtree_leaves` in
order; the first unrevealed labeled leaf is revealed and returned at once
(after `assert self.tuning_phase`, modelled by `Except Unit`); unrevealed
unlabeled leaves are collected into `acc` (`sample_ids`).  At the end: no
sample during tuning or when `sample_ids` is empty; otherwise the source
draws twice — the first draw (`unlabeled_id`) is marked revealed, the
second, independent draw is the id actually returned.  `cs` is the stream
of random-choice indices. -/
def pickAux (k : Nat) (tuning : Bool) (revealed : Finset Nat) (cs : List Nat) :
    List Nat → List Nat → Except Unit (Option Nat × Finset Nat × List Nat)
  | [], acc =>
    if tuning || acc.isEmpty then .ok (none, revealed, cs)
    else
      let c1 := cs.headD 0
      let c2 := (cs.drop 1).headD 0
      let u := acc.getD (c1 % acc.length) 0
      let z := acc.getD (c2 % acc.length) 0
      .ok (some z, insert u revealed, cs.drop 2)
  | leaf :: rest, acc =>
    if leaf ∈ revealed then pickAux k tuning revealed cs rest acc
    else if leaf < k then
      if tuning then .ok (some leaf, insert leaf revealed, cs)
      else .error ()
    else pickAux k tuning revealed cs rest (acc ++ [leaf])

/-- The call `_pick_sample_id_from_node` on the subtree of the selected cell. -/
def pickSampleIdFromNode (k : Nat) (tuning : Bool) (v : BTree)
    (revealed : Finset Nat) (cs : List Nat) :
    Except Unit (Option Nat × Finset Nat × List Nat) :=
  pickAux k tuning revealed cs (leavesL v) []

/-- The id path from leaf `z` up to the root of subtree `v` inclusive:
`_get_upward_path(z, rootId v)` on its intended domain. -/
def upPath : BTree → Nat → Option (List Nat)
  | .lf i, z => if z = i then some [z] else none
  | .nd i l r, z =>
    match upPath l z with
    | some q => some (q ++ [i])
    | none =>
      match upPath r z with
      | some q => some (q ++ [i])
      | none => none

/-- The helper `update_counts`: along the upward path, bump the node's label count and
`num_revealed`. -/
def updateCounts (path : List Nat) (lab : Int) (s : SState) : SState :=
  path.foldl
    (fun s v =>
      { s with
        dCnt := Function.update s.dCnt v (dInc (s.dCnt v) lab)
        nRev := Function.update s.nRev v (s.nRev v + 1) })
    s

/-- The admissible-set additions of `_update`: for every node of the update
scope and every update label, insert the pair when the admissibility test
holds on the current statistics. -/
def updateAdmissible (test : SState → Nat → Int → Bool) (s : SState)
    (nodes : List Nat) (lbls : List Int) : Finset (Nat × Int) :=
  nodes.foldl
    (fun A v =>
      lbls.foldl (fun A l => if test s v l then insert (v, l) A else A) A)
    s.admissible

/-- The engine `_update`: add admissible pairs for the update scope, then rewrite every
cell of the active pruning by the sub-pruning `s_v` computed for it. -/
def updateStep (test : SState → Nat → Int → Bool) (g : Glob)
    (nodes : List Nat) (lbls : List Int) (s : SState) : SState :=
  let A := updateAdmissible test s nodes lbls
  let adm : Nat → Int → Bool := fun v l => decide ((v, l) ∈ A)
  let p : Nat → Int → ℚ := fun v l => pQ (s.dCnt v) (s.nRev v) l
  { s with
    admissible := A
    pruning := s.pruning.flatMap (fun c => (sV adm p g.labels c.1).2) }

/-- Result of one `sample()` call. -/
inductive Outcome where
  | sampled (z : Nat)
  | fuelOut
  | failed
deriving DecidableEq

/-- The `while True` retry loop of `sample()`: select a pruning cell with
the next choice index (the weighted `np.random.choice` can return any cell,
all weights being positive), try to pick a leaf below it, retry on no
sample; on a successful pick run `update_counts` and `_update` on the
upward path of the returned id and report that id (the call then returns
that point's features and true label).  `fuel` bounds the retry iterations;
the state is returned unchanged on `fuelOut` since failed iterations mutate
nothing. -/
def sampleLoop (test : SState → Nat → Int → Bool) (g : Glob) :
    Nat → List Nat → SState → Outcome × SState
  | 0, _, s => (.fuelOut, s)
  | fuel + 1, cs, s =>
    if s.pruning.isEmpty then (.failed, s)
    else
      let c := cs.headD 0
      let v := (s.pruning.getD (c % s.pruning.length) (.lf 0, 0)).1
      match pickSampleIdFromNode g.k s.tuning v s.revealed (cs.drop 1) with
      | .error _ => (.failed, s)
      | .ok (none, rev, cs1) =>
        sampleLoop test g fuel cs1 { s with revealed := rev }
      | .ok (some z, rev, _) =>
        let path := (upPath v z).getD [z]
        let s1 := updateCounts path (g.y z) { s with revealed := rev }
        (.sampled z, updateStep test g path [g.y z] s1)

/-- A sequence of `sample()` calls, each with its own fuel bound and choice
stream; returns the outcomes and the final state. -/
def runCalls (test : SState → Nat → Int → Bool) (g : Glob) :
    List (Nat × List Nat) → SState → List Outcome × SState
  | [], s => ([], s)
  | (fuel, cs) :: rest, s =>
    let r := sampleLoop test g fuel cs s
    let rr := runCalls test g rest r.2
    (r.1 :: rr.1, rr.2)

/-- The state `__init__` reaches right after building the tree and the
initial pruning `{root: -1}`, before the tuning loop. -/
def mkInit (g : Glob) : SState :=
  { revealed := ∅
    admissible := ∅
    dCnt := fun _ => []
    nRev := fun _ => 0
    pruning := [(g.t, -1)]
    tuning := true }

/-- The assignment `self.tuning_phase = False` at the end of `__init__`. -/
def finishTuning (s : SState) : SState := { s with tuning := false }

/-- A full sampler run: the constructor's tuning calls, the flag flip, then
the active-phase calls. -/
def runSampler (test : SState → Nat → Int → Bool) (g : Glob)
    (tuningCalls activeCalls : List (Nat × List Nat)) : SState :=
  (runCalls test g activeCalls
    (finishTuning (runCalls test g tuningCalls (mkInit g)).2)).2

/-- Invariant `num_revealed(node) == sum(class_to_instances(node).values())`. -/
def Inv10 (s : SState) : Prop := ∀ v, s.nRev v = sumVals (s.dCnt v)

/-- Every stored label count is positive at every reachable state (the
program only ever increments counts), which discharges the positivity
hypothesis of `update_estimates_match_spec` and
`zero_revealed_not_admissible` for real program states. -/
def InvPos (s : SState) : Prop := ∀ v, ∀ e ∈ s.dCnt v, 0 < e.2

/-- Did a `sample()` call complete with a sample? -/
def isSampledO : Outcome → Bool
  | .sampled _ => true
  | _ => false

/-- The trivially-false admissibility test (used only to instantiate the
test parameter in concrete runs). -/
def testNone : SState → Nat → Int → Bool := fun _ _ _ => false

/-- Scenario sampler data: the 4-leaf tree with 2 labeled points. -/
def gScen : Glob := { t := scenTree, k := 2, y := fun _ => 0, labels := [0, 1] }

/-- The subtree of internal node 4 (leaves 0 and 1). -/
def sub4 : BTree := .nd 4 (.lf 0) (.lf 1)

/-- The subtree of internal node 5 (leaves 2 and 3). -/
def sub5 : BTree := .nd 5 (.lf 2) (.lf 3)

/-- Scenario sampler data with no labeled points (`k = 0`): every leaf is
unlabeled and the tuning phase is empty. -/
def gAct : Glob := { t := scenTree, k := 0, y := fun _ => 0, labels := [0] }

/-- An active-phase state whose pruning is `{4, 5}` with the cell of node 5
exhausted (leaves 2, 3 both revealed) and leaves 0, 1 still unrevealed. -/
def sExh : SState :=
  { revealed := {2, 3}
    admissible := ∅
    dCnt := fun _ => []
    nRev := fun _ => 0
    pruning := [(sub4, 0), (sub5, 0)]
    tuning := false }

/-- An active-phase state with the single pruning cell of node 4, both of
its leaves unlabeled and unrevealed. -/
def sPick : SState :=
  { revealed := ∅
    admissible := ∅
    dCnt := fun _ => []
    nRev := fun _ => 0
    pruning := [(sub4, 0)]
    tuning := false }

/-! ## Theorems -/

theorem leavesL_length (t : BTree) : (leavesL t).length = leafCount t := by
  induction t with
  | lf i => rfl
  | nd i l r ihl ihr => simp [leavesL, leafCount, ihl, ihr]

theorem leafCount_pos (t : BTree) : 0 < leafCount t := by
  induction t with
  | lf i => exact Nat.one_pos
  | nd i l r ihl ihr => exact Nat.add_pos_left ihl _

theorem leafCount_lt_of_strictSub (s t : BTree) (h : isStrictSub s t = true) :
    leafCount s < leafCount t := by
  induction t with
  | lf i => simp [isStrictSub] at h
  | nd i l r ihl ihr =>
    simp only [isStrictSub, Bool.or_eq_true, decide_eq_true_eq] at h
    have hl := leafCount_pos l
    have hr := leafCount_pos r
    rcases h with ((h | h) | h) | h
    · subst h; simp [leafCount]; omega
    · subst h; simp [leafCount]; omega
    · have := ihl h; simp [leafCount]; omega
    · have := ihr h; simp [leafCount]; omega

/-- C8: after the one-time weight computation, every node's weight equals
(number of leaves in its subtree) / (total leaf count N); the root's weight
equals exactly 1 and every non-root node's weight is strictly less than 1. -/
theorem compute_weights_correct (t : BTree) :
    (∀ s : BTree, (s = t ∨ isStrictSub s t = true) →
        weightQ (leafCount t) s = (leafCount s : ℚ) / (leafCount t : ℚ)) ∧
    weightQ (leafCount t) t = 1 ∧
    (∀ s : BTree, isStrictSub s t = true → weightQ (leafCount t) s < 1) := by
  have hposT : (0 : ℚ) < (leafCount t : ℚ) := by
    exact_mod_cast leafCount_pos t
  refine ⟨?_, ?_, ?_⟩
  · intro s _
    simp [weightQ, leavesL_length]
  · simp only [weightQ, leavesL_length]
    exact div_self (ne_of_gt hposT)
  · intro s hs
    have hlt : (leafCount s : ℚ) < (leafCount t : ℚ) := by
      exact_mod_cast leafCount_lt_of_strictSub s t hs
    simp only [weightQ, leavesL_length]
    rw [div_lt_one hposT]
    exact hlt

/-- Witness for `compute_weights_correct` at the scenario tree and the
subtree rooted at node 4. -/
theorem compute_weights_correct_witness :
    (isStrictSub (.nd 4 (.lf 0) (.lf 1)) scenTree = true) ∧
    weightQ (leafCount scenTree) (.nd 4 (.lf 0) (.lf 1)) < 1 :=
  ⟨by decide, (compute_weights_correct scenTree).2.2 _ (by decide)⟩

theorem dGet_eq_zero_of_not_mem (d : List (Int × Nat)) (l : Int)
    (h : dMem d l = false) : dGet d l = 0 := by
  induction d with
  | nil => rfl
  | cons e rest ih =>
    simp only [dMem, Bool.or_eq_false_iff, decide_eq_false_iff_not] at h
    simp only [dGet, if_neg h.1]
    exact ih h.2

theorem dGet_le_sumVals (d : List (Int × Nat)) (l : Int) :
    dGet d l ≤ sumVals d := by
  induction d with
  | nil => simp [dGet, sumVals]
  | cons e rest ih =>
    by_cases he : e.1 = l
    · simp [dGet, sumVals, if_pos he]
    · simp only [dGet, if_neg he, sumVals, List.map_cons, List.sum_cons]
      exact le_add_of_nonneg_of_le (Nat.zero_le _) ih

theorem eq_nil_of_sumVals_eq_zero (d : List (Int × Nat))
    (hpos : ∀ e ∈ d, 0 < e.2) (h : sumVals d = 0) : d = [] := by
  cases d with
  | nil => rfl
  | cons e rest =>
    exfalso
    have h1 : 0 < e.2 := hpos e (List.mem_cons_self e rest)
    simp only [sumVals, List.map_cons, List.sum_cons] at h
    omega

theorem sumVals_dInc (d : List (Int × Nat)) (l : Int) :
    sumVals (dInc d l) = sumVals d + 1 := by
  induction d with
  | nil => rfl
  | cons e rest ih =>
    by_cases he : e.1 = l
    · simp [dInc, if_pos he, sumVals]; omega
    · simp [dInc, if_neg he, sumVals] at ih ⊢; omega

/-- C4: for every node and label, the source's empirical estimate, confidence
radius and bounds agree with the spec's formulas, under the program invariant
that `num_revealed` is the sum of the (positive) stored label counts. -/
theorem update_estimates_match_spec (d : List (Int × Nat)) (n : Nat) (l : Int)
    (hn : n = sumVals d) (hpos : ∀ e ∈ d, 0 < e.2) :
    pSrc d n l = pSpec d n l ∧ deltaSrc d n l = deltaSpec d n l ∧
    pLB d n l = pLBSpec d n l ∧ pUB d n l = pUBSpec d n l := by
  have hp : pSrc d n l = pSpec d n l := by
    rcases Nat.eq_zero_or_pos n with hz | hpn
    · subst hz
      have hd : d = [] := eq_nil_of_sumVals_eq_zero d hpos hn.symm
      subst hd
      simp [pSrc, pSpec, dMem]
    · unfold pSrc pSpec
      rw [if_pos hpn]
      by_cases hm : dMem d l
      · rw [if_pos hm]
      · rw [if_neg hm, dGet_eq_zero_of_not_mem d l (by simpa using hm)]
        simp
  have hdel : deltaSrc d n l = deltaSpec d n l := by
    unfold deltaSrc deltaSpec
    rw [hp]
  have hcase : (d = []) ↔ (n = 0) := by
    constructor
    · intro h; subst h; simpa [sumVals] using hn
    · intro h; exact eq_nil_of_sumVals_eq_zero d hpos (h ▸ hn.symm)
  refine ⟨hp, hdel, ?_, ?_⟩
  · unfold pLB pLBSpec
    by_cases hd : d = []
    · rw [if_pos hd, if_pos (hcase.mp hd)]
    · rw [if_neg hd, if_neg (fun h => hd (hcase.mpr h)), hp, hdel]
  · unfold pUB pUBSpec
    by_cases hd : d = []
    · rw [if_pos hd, if_pos (hcase.mp hd)]
    · rw [if_neg hd, if_neg (fun h => hd (hcase.mpr h)), hp, hdel]

/-- Witness for `update_estimates_match_spec` at a node with counts
`{0 ↦ 2, 1 ↦ 1}` and `num_revealed = 3`. -/
theorem update_estimates_match_spec_witness :
    (3 = sumVals [((0 : Int), 2), (1, 1)]) ∧
    pLB [((0 : Int), 2), (1, 1)] 3 0 = pLBSpec [((0 : Int), 2), (1, 1)] 3 0 :=
  ⟨by decide,
    (update_estimates_match_spec [((0 : Int), 2), (1, 1)] 3 0 (by decide)
      (by decide)).2.2.1⟩

theorem pUB_nil (n : Nat) (l : Int) : pUB [] n l = 1 := by simp [pUB]

theorem pLB_nil (n : Nat) (l : Int) : pLB [] n l = 0 := by simp [pLB]

theorem minOther_nil_acc_zero (n : Nat) (l : Int) (labels : List Int) :
    labels.foldl
      (fun acc lp =>
        if lp = l then acc
        else
          match acc with
          | none => some (1 - pUB [] n lp)
          | some m => some (min m (1 - pUB [] n lp)))
      (some 0) = some 0 := by
  induction labels with
  | nil => rfl
  | cons lp rest ih =>
    by_cases hlp : lp = l
    · simpa [List.foldl, if_pos hlp] using ih
    · simpa [List.foldl, if_neg hlp, pUB_nil] using ih

theorem minOther_nil (n : Nat) (l : Int) (labels : List Int)
    (h : ∃ lp ∈ labels, lp ≠ l) : minOther [] n labels l = some 0 := by
  unfold minOther
  induction labels with
  | nil => simp at h
  | cons lp rest ih =>
    by_cases hlp : lp = l
    · have hrest : ∃ x ∈ rest, x ≠ l := by
        rcases h with ⟨x, hx, hxne⟩
        rcases List.mem_cons.mp hx with rfl | hx2
        · exact absurd hlp hxne
        · exact ⟨x, hx2, hxne⟩
      simpa [List.foldl, if_pos hlp] using ih hrest
    · have : (1 : ℝ) - pUB [] n lp = 0 := by rw [pUB_nil]; ring
      simpa [List.foldl, if_neg hlp, this] using minOther_nil_acc_zero n l rest

/-- C5 fails as stated: at a node with `num_revealed == 0`, when the problem
has a single known label the minimum over "all other labels" is the initial
`float(inf)` and the admissibility test evaluates to true, not false. -/
theorem zero_revealed_admissible_single_label :
    isAdmissibleR 2 [0] [] 0 0 := by
  show (match minOther [] 0 [0] 0 with
    | none => True
    | some m => 1 - pLB [] 0 0 < 2 * m)
  have h : minOther [] 0 [(0 : Int)] 0 = none := by
    unfold minOther
    simp [List.foldl]
  rw [h]
  trivial

/-- C5, amended: at a node with `num_revealed == 0` (hence an empty
label-count mapping, by the program invariant), the admissibility test is
false for every label, provided some other label exists in the label set. -/
theorem zero_revealed_not_admissible (beta : ℝ) (labels : List Int)
    (d : List (Int × Nat)) (n : Nat) (l : Int)
    (hn : n = 0) (hsum : sumVals d = n) (hpos : ∀ e ∈ d, 0 < e.2)
    (hother : ∃ lp ∈ labels, lp ≠ l) :
    ¬ isAdmissibleR beta labels d n l := by
  have hd : d = [] := eq_nil_of_sumVals_eq_zero d hpos (hn ▸ hsum)
  subst hd; subst hn
  intro hadm
  unfold isAdmissibleR at hadm
  rw [minOther_nil 0 l labels hother] at hadm
  rw [pLB_nil] at hadm
  simp at hadm
  linarith

/-- Witness for `zero_revealed_not_admissible` with labels `{0, 1}`. -/
theorem zero_revealed_not_admissible_witness :
    ((0 : Nat) = 0) ∧ ¬ isAdmissibleR 2 [0, 1] [] 0 0 :=
  ⟨rfl, zero_revealed_not_admissible 2 [0, 1] [] 0 0 rfl rfl (by decide)
    (by decide)⟩

theorem getUpwardPathAux_spin (trail : List Nat) (fuel : Nat) :
    getUpwardPathAux scenPar 5 6 6 trail fuel = none := by
  induction fuel generalizing trail with
  | zero => rfl
  | succ f ih =>
    show (if (6 : Nat) = 5 then some trail
      else getUpwardPathAux scenPar 5 6 ((scenPar 6).getD 6) (trail ++ [6]) f)
      = none
    rw [if_neg (by decide)]
    exact ih (trail ++ [6])

/-- C3 fails as stated: requesting the upward path from leaf 0 to node 5,
which is not an ancestor of 0, never raises the diagnostic — once the walk
reaches the root its state repeats forever (`cur = parent = 6`), so the loop
spins for any number of iterations. -/
theorem nonancestor_path_never_returns (fuel : Nat) :
    getUpwardPath scenPar 0 5 fuel = none := by
  show getUpwardPathAux scenPar 5 0 4 [0] fuel = none
  match fuel with
  | 0 => rfl
  | 1 => rfl
  | 2 => rfl
  | f + 3 =>
    show getUpwardPathAux scenPar 5 0 4 [0] (f + 3) = none
    have h1 : getUpwardPathAux scenPar 5 0 4 [0] (f + 3) =
        getUpwardPathAux scenPar 5 4 6 [0, 4] (f + 2) := by
      show (if (0 : Nat) = 5 then some [0]
        else getUpwardPathAux scenPar 5 4 ((scenPar 4).getD 4) [0, 4] (f + 2))
        = _
      rw [if_neg (by decide)]
      rfl
    have h2 : getUpwardPathAux scenPar 5 4 6 [0, 4] (f + 2) =
        getUpwardPathAux scenPar 5 6 6 [0, 4, 6] (f + 1) := by
      show (if (4 : Nat) = 5 then some [0, 4]
        else getUpwardPathAux scenPar 5 6 ((scenPar 6).getD 6) [0, 4, 6] (f + 1))
        = _
      rw [if_neg (by decide)]
      rfl
    rw [h1, h2]
    exact getUpwardPathAux_spin [0, 4, 6] (f + 1)

theorem getUpwardPathAux_of_chain (par : Nat → Option Nat) (v : Nat)
    (cs : List Nat) (h : ChainTo par v cs) :
    ∀ trail fuel, cs.length ≤ fuel →
      (match cs with
        | [] => True
        | a :: rest =>
            getUpwardPathAux par v a ((par a).getD a) trail fuel =
              some (trail ++ rest)) := by
  induction h with
  | last =>
    intro trail fuel hfuel
    match fuel, hfuel with
    | f + 1, _ =>
      show (if v = v then some trail
        else getUpwardPathAux par v _ _ (trail ++ [_]) f) = some (trail ++ [])
      rw [if_pos rfl, List.append_nil]
  | step a b rest hne hpar htail ih =>
    intro trail fuel hfuel
    match fuel, hfuel with
    | f + 1, hfuel =>
      show (if a = v then some trail
        else getUpwardPathAux par v ((par a).getD a)
          ((par ((par a).getD a)).getD ((par a).getD a))
          (trail ++ [(par a).getD a]) f) = some (trail ++ (b :: rest))
      rw [if_neg hne, hpar]
      have hgd : (Option.getD (some b) a) = b := rfl
      rw [hgd]
      have hf : (b :: rest).length ≤ f := by
        simp only [List.length_cons] at hfuel ⊢
        omega
      have h3 : getUpwardPathAux par v b ((par b).getD b) (trail ++ [b]) f =
          some (trail ++ [b] ++ rest) := ih (trail ++ [b]) f hf
      rw [List.append_assoc] at h3
      exact h3

/-- For a true ancestor `v` of `z` (witnessed by the parent chain
`z :: cs`), `_get_upward_path(z, v)` terminates and returns the ordered id
sequence from `z` up to `v` inclusive. -/
theorem getUpwardPath_of_chain (par : Nat → Option Nat) (v z : Nat)
    (cs : List Nat) (h : ChainTo par v (z :: cs)) (p0 : Nat)
    (hp : par z = some p0) (fuel : Nat) (hfuel : cs.length + 1 ≤ fuel) :
    getUpwardPath par z v fuel = some (z :: cs) := by
  have hmain := getUpwardPathAux_of_chain par v (z :: cs) h [z] fuel
    (by simpa [List.length] using hfuel)
  unfold getUpwardPath
  rw [hp]
  have hgd : (par z).getD z = p0 := by rw [hp]; rfl
  have : getUpwardPathAux par v z p0 [z] fuel = some ([z] ++ cs) := by
    rw [← hgd]
    exact hmain
  simpa using this

/-- Witness: the upward path from leaf 0 to the root 6 of the scenario
tree. -/
theorem getUpwardPath_of_chain_witness :
    getUpwardPath scenPar 0 6 3 = some [0, 4, 6] :=
  getUpwardPath_of_chain scenPar 6 0 [4, 6]
    (.step 0 4 [6] (by decide) rfl (.step 4 6 [] (by decide) rfl .last))
    4 rfl 3 (by decide)

/-- The sub-pruning `s_v` computes for a node covers exactly the leaves of
that node's subtree. -/
theorem sV_partition (adm : Nat → Int → Bool) (p : Nat → Int → ℚ)
    (labels : List Int) (t : BTree) :
    pruningLeaves (sV adm p labels t).2 = leavesL t := by
  induction t with
  | lf i => simp [sV, pruningLeaves, leavesL]
  | nd i l r ihl ihr =>
    simp only [sV]
    by_cases hadm : labels.any (fun lab => adm i lab)
    · rw [if_pos hadm]
      by_cases hsc : (leafCount l : ℚ) / ((leafCount (.nd i l r) : ℚ)) *
            (sV adm p labels l).1 +
            (leafCount r : ℚ) / ((leafCount (.nd i l r) : ℚ)) *
            (sV adm p labels r).1 <
          epsQ adm p i (argminFirst (epsQ adm p i) labels)
      · rw [if_pos hsc]
        simp only [pruningLeaves, List.flatMap_append] at ihl ihr ⊢
        rw [ihl, ihr]
        rfl
      · rw [if_neg hsc]
        simp [pruningLeaves, leavesL]
    · rw [if_neg hadm]
      simp [pruningLeaves, leavesL]

theorem foldl_superset {α β : Type} [DecidableEq β] (f : Finset β → α → Finset β)
    (hf : ∀ A x, A ⊆ f A x) (L : List α) : ∀ A : Finset β, A ⊆ L.foldl f A := by
  induction L with
  | nil => intro A; exact Finset.Subset.refl A
  | cons x rest ih => intro A; exact (hf A x).trans (ih (f A x))

theorem updateCounts_cons (v : Nat) (rest : List Nat) (lab : Int) (s : SState) :
    updateCounts (v :: rest) lab s =
      updateCounts rest lab
        { s with
          dCnt := Function.update s.dCnt v (dInc (s.dCnt v) lab)
          nRev := Function.update s.nRev v (s.nRev v + 1) } := rfl

theorem updateCounts_fields (path : List Nat) (lab : Int) (s : SState) :
    (updateCounts path lab s).revealed = s.revealed ∧
    (updateCounts path lab s).admissible = s.admissible ∧
    (updateCounts path lab s).pruning = s.pruning ∧
    (updateCounts path lab s).tuning = s.tuning := by
  induction path generalizing s with
  | nil => exact ⟨rfl, rfl, rfl, rfl⟩
  | cons v rest ih =>
    rw [updateCounts_cons]
    exact ih _

theorem updateStep_fields (test : SState → Nat → Int → Bool) (g : Glob)
    (nodes : List Nat) (lbls : List Int) (s : SState) :
    (updateStep test g nodes lbls s).revealed = s.revealed ∧
    (updateStep test g nodes lbls s).dCnt = s.dCnt ∧
    (updateStep test g nodes lbls s).nRev = s.nRev ∧
    (updateStep test g nodes lbls s).tuning = s.tuning :=
  ⟨rfl, rfl, rfl, rfl⟩

theorem updateStep_admissible_superset (test : SState → Nat → Int → Bool)
    (g : Glob) (nodes : List Nat) (lbls : List Int) (s : SState) :
    s.admissible ⊆ (updateStep test g nodes lbls s).admissible := by
  show s.admissible ⊆ updateAdmissible test s nodes lbls
  unfold updateAdmissible
  apply foldl_superset
  intro A v
  apply foldl_superset
  intro A2 l
  by_cases h : test s v l
  · rw [if_pos h]; exact Finset.subset_insert _ _
  · rw [if_neg h]

theorem pickAux_ok_subset (k : Nat) (tuning : Bool) (revealed : Finset Nat)
    (cs : List Nat) (lst acc : List Nat)
    (res : Option Nat × Finset Nat × List Nat)
    (h : pickAux k tuning revealed cs lst acc = .ok res) :
    revealed ⊆ res.2.1 := by
  induction lst generalizing acc with
  | nil =>
    simp only [pickAux] at h
    split at h
    · cases h; exact Finset.Subset.refl _
    · cases h; exact Finset.subset_insert _ _
  | cons leaf rest ih =>
    simp only [pickAux] at h
    split at h
    · exact ih acc h
    · split at h
      · split at h
        · cases h; exact Finset.subset_insert _ _
        · simp at h
      · exact ih (acc ++ [leaf]) h

theorem pickAux_tuning_cases (k : Nat) (revealed : Finset Nat) (cs : List Nat)
    (lst acc : List Nat) (res : Option Nat × Finset Nat × List Nat)
    (h : pickAux k true revealed cs lst acc = .ok res) :
    (res.1 = none ∧ res.2.1 = revealed) ∨
    (∃ z, res.1 = some z ∧ z < k ∧ z ∉ revealed ∧
      res.2.1 = insert z revealed) := by
  induction lst generalizing acc with
  | nil =>
    simp only [pickAux, Bool.true_or, if_true] at h
    cases h
    exact Or.inl ⟨rfl, rfl⟩
  | cons leaf rest ih =>
    by_cases hmem : leaf ∈ revealed
    · simp only [pickAux, if_pos hmem] at h
      exact ih acc h
    · by_cases hk : leaf < k
      · simp only [pickAux, if_neg hmem, if_pos hk, if_true] at h
        cases h
        exact Or.inr ⟨leaf, rfl, hk, hmem, rfl⟩
      · simp only [pickAux, if_neg hmem, if_neg hk] at h
        exact ih (acc ++ [leaf]) h

theorem sampleLoop_succ (test : SState → Nat → Int → Bool) (g : Glob)
    (fuel : Nat) (cs : List Nat) (s : SState) :
    sampleLoop test g (fuel + 1) cs s =
      if s.pruning.isEmpty then (.failed, s)
      else
        match pickSampleIdFromNode g.k s.tuning
            ((s.pruning.getD ((cs.headD 0) % s.pruning.length) (.lf 0, 0)).1)
            s.revealed (cs.drop 1) with
        | .error _ => (.failed, s)
        | .ok (none, rev, cs1) =>
            sampleLoop test g fuel cs1 { s with revealed := rev }
        | .ok (some z, rev, _) =>
            (.sampled z,
              updateStep test g
                ((upPath ((s.pruning.getD ((cs.headD 0) % s.pruning.length)
                    (.lf 0, 0)).1) z).getD [z]) [g.y z]
                (updateCounts
                  ((upPath ((s.pruning.getD ((cs.headD 0) % s.pruning.length)
                      (.lf 0, 0)).1) z).getD [z]) (g.y z)
                  { s with revealed := rev })) := rfl

theorem sampleLoop_tuning_flag (test : SState → Nat → Int → Bool) (g : Glob)
    (fuel : Nat) (cs : List Nat) (s : SState) :
    (sampleLoop test g fuel cs s).2.tuning = s.tuning := by
  induction fuel generalizing cs s with
  | zero => rfl
  | succ f ih =>
    rw [sampleLoop_succ]
    by_cases hempty : s.pruning.isEmpty
    · rw [if_pos hempty]
    · rw [if_neg hempty]
      split
      · rfl
      · exact ih _ _
      · exact ((updateStep_fields _ _ _ _ _).2.2.2).trans
          ((updateCounts_fields _ _ _).2.2.2)

theorem sampleLoop_revealed_mono (test : SState → Nat → Int → Bool) (g : Glob)
    (fuel : Nat) (cs : List Nat) (s : SState) :
    s.revealed ⊆ (sampleLoop test g fuel cs s).2.revealed := by
  induction fuel generalizing cs s with
  | zero => exact Finset.Subset.refl _
  | succ f ih =>
    rw [sampleLoop_succ]
    by_cases hempty : s.pruning.isEmpty
    · rw [if_pos hempty]
    · rw [if_neg hempty]
      split
      · exact Finset.Subset.refl _
      · rename_i rev cs1 heq
        have hsub : s.revealed ⊆ rev := pickAux_ok_subset _ _ _ _ _ _ _ heq
        exact hsub.trans (ih cs1 { s with revealed := rev })
      · rename_i z rev snd heq
        have hsub : s.revealed ⊆ rev := pickAux_ok_subset _ _ _ _ _ _ _ heq
        have h1 := (updateStep_fields test g
          ((upPath ((s.pruning.getD ((cs.headD 0) % s.pruning.length)
            (.lf 0, 0)).1) z).getD [z]) [g.y z]
          (updateCounts ((upPath ((s.pruning.getD ((cs.headD 0) % s.pruning.length)
            (.lf 0, 0)).1) z).getD [z]) (g.y z) { s with revealed := rev })).1
        rw [(updateCounts_fields _ _ _).1] at h1
        exact Finset.Subset.trans hsub (h1 ▸ Finset.Subset.refl _)

theorem sampleLoop_admissible_mono (test : SState → Nat → Int → Bool)
    (g : Glob) (fuel : Nat) (cs : List Nat) (s : SState) :
    s.admissible ⊆ (sampleLoop test g fuel cs s).2.admissible := by
  induction fuel generalizing cs s with
  | zero => exact Finset.Subset.refl _
  | succ f ih =>
    rw [sampleLoop_succ]
    by_cases hempty : s.pruning.isEmpty
    · rw [if_pos hempty]
    · rw [if_neg hempty]
      split
      · exact Finset.Subset.refl _
      · rename_i rev cs1 heq
        exact ih cs1 { s with revealed := rev }
      · rename_i z rev snd heq
        have h1 := updateStep_admissible_superset test g
          ((upPath ((s.pruning.getD ((cs.headD 0) % s.pruning.length)
            (.lf 0, 0)).1) z).getD [z]) [g.y z]
          (updateCounts ((upPath ((s.pruning.getD ((cs.headD 0) % s.pruning.length)
            (.lf 0, 0)).1) z).getD [z]) (g.y z) { s with revealed := rev })
        rw [(updateCounts_fields _ _ _).2.1] at h1
        exact h1

theorem pruningLeaves_append (P Q : List (BTree × Int)) :
    pruningLeaves (P ++ Q) = pruningLeaves P ++ pruningLeaves Q := by
  simp [pruningLeaves]

theorem pruningLeaves_flatMap_sV (adm : Nat → Int → Bool) (p : Nat → Int → ℚ)
    (labels : List Int) (P : List (BTree × Int)) :
    pruningLeaves (P.flatMap fun c => (sV adm p labels c.1).2) =
      pruningLeaves P := by
  induction P with
  | nil => rfl
  | cons c rest ih =>
    rw [List.flatMap_cons, pruningLeaves_append, sV_partition, ih]
    rfl

theorem updateStep_pruningLeaves (test : SState → Nat → Int → Bool) (g : Glob)
    (nodes : List Nat) (lbls : List Int) (s : SState) :
    pruningLeaves (updateStep test g nodes lbls s).pruning =
      pruningLeaves s.pruning :=
  pruningLeaves_flatMap_sV _ _ _ _

theorem sampleLoop_pruningLeaves (test : SState → Nat → Int → Bool) (g : Glob)
    (fuel : Nat) (cs : List Nat) (s : SState) :
    pruningLeaves (sampleLoop test g fuel cs s).2.pruning =
      pruningLeaves s.pruning := by
  induction fuel generalizing cs s with
  | zero => rfl
  | succ f ih =>
    rw [sampleLoop_succ]
    by_cases hempty : s.pruning.isEmpty
    · rw [if_pos hempty]
    · rw [if_neg hempty]
      cases hpick : pickSampleIdFromNode g.k s.tuning
          ((s.pruning.getD ((cs.headD 0) % s.pruning.length) (.lf 0, 0)).1)
          s.revealed (cs.drop 1) with
      | error e => rfl
      | ok res =>
        obtain ⟨ro, rev, cs1⟩ := res
        cases ro with
        | none => exact ih cs1 _
        | some z =>
          show pruningLeaves (updateStep _ _ _ _ (updateCounts _ _ _)).pruning = _
          rw [updateStep_pruningLeaves, (updateCounts_fields _ _ _).2.2.1]

theorem runCalls_revealed_mono (test : SState → Nat → Int → Bool) (g : Glob)
    (calls : List (Nat × List Nat)) (s : SState) :
    s.revealed ⊆ (runCalls test g calls s).2.revealed := by
  induction calls generalizing s with
  | nil => exact Finset.Subset.refl _
  | cons call rest ih =>
    obtain ⟨fuel, cs⟩ := call
    exact (sampleLoop_revealed_mono test g fuel cs s).trans (ih _)

theorem runCalls_admissible_mono (test : SState → Nat → Int → Bool) (g : Glob)
    (calls : List (Nat × List Nat)) (s : SState) :
    s.admissible ⊆ (runCalls test g calls s).2.admissible := by
  induction calls generalizing s with
  | nil => exact Finset.Subset.refl _
  | cons call rest ih =>
    obtain ⟨fuel, cs⟩ := call
    exact (sampleLoop_admissible_mono test g fuel cs s).trans (ih _)

theorem runCalls_pruningLeaves (test : SState → Nat → Int → Bool) (g : Glob)
    (calls : List (Nat × List Nat)) (s : SState) :
    pruningLeaves (runCalls test g calls s).2.pruning =
      pruningLeaves s.pruning := by
  induction calls generalizing s with
  | nil => rfl
  | cons call rest ih =>
    obtain ⟨fuel, cs⟩ := call
    rw [show (runCalls test g ((fuel, cs) :: rest) s).2 =
      (runCalls test g rest (sampleLoop test g fuel cs s).2).2 from rfl]
    rw [ih _, sampleLoop_pruningLeaves]

/-- C9: across every sequence of sampling operations, for every admissibility
test, the revealed set and the admissible set grow monotonically — each call
only adds elements to them and never removes any. -/
theorem revealed_admissible_monotone (test : SState → Nat → Int → Bool)
    (g : Glob) (calls : List (Nat × List Nat)) (s : SState) :
    s.revealed ⊆ (runCalls test g calls s).2.revealed ∧
    s.admissible ⊆ (runCalls test g calls s).2.admissible :=
  ⟨runCalls_revealed_mono test g calls s,
    runCalls_admissible_mono test g calls s⟩

theorem updateCounts_inv (path : List Nat) (lab : Int) (s : SState)
    (h : Inv10 s) : Inv10 (updateCounts path lab s) := by
  induction path generalizing s with
  | nil => exact h
  | cons v0 rest ih =>
    rw [updateCounts_cons]
    apply ih
    intro v
    by_cases hv : v = v0
    · subst hv
      show Function.update s.nRev v (s.nRev v + 1) v =
        sumVals (Function.update s.dCnt v (dInc (s.dCnt v) lab) v)
      rw [Function.update_same, Function.update_same, sumVals_dInc, h v]
    · show Function.update s.nRev v0 (s.nRev v0 + 1) v =
        sumVals (Function.update s.dCnt v0 (dInc (s.dCnt v0) lab) v)
      rw [Function.update_noteq hv, Function.update_noteq hv]
      exact h v

theorem updateStep_inv (test : SState → Nat → Int → Bool) (g : Glob)
    (nodes : List Nat) (lbls : List Int) (s : SState)
    (h : Inv10 s) : Inv10 (updateStep test g nodes lbls s) := by
  intro v
  rw [show (updateStep test g nodes lbls s).nRev = s.nRev from rfl,
    show (updateStep test g nodes lbls s).dCnt = s.dCnt from rfl]
  exact h v

theorem sampleLoop_inv (test : SState → Nat → Int → Bool) (g : Glob)
    (fuel : Nat) (cs : List Nat) (s : SState)
    (h : Inv10 s) : Inv10 (sampleLoop test g fuel cs s).2 := by
  induction fuel generalizing cs s with
  | zero => exact h
  | succ f ih =>
    rw [sampleLoop_succ]
    by_cases hempty : s.pruning.isEmpty
    · rw [if_pos hempty]; exact h
    · rw [if_neg hempty]
      cases hpick : pickSampleIdFromNode g.k s.tuning
          ((s.pruning.getD ((cs.headD 0) % s.pruning.length) (.lf 0, 0)).1)
          s.revealed (cs.drop 1) with
      | error e => exact h
      | ok res =>
        obtain ⟨ro, rev, cs1⟩ := res
        cases ro with
        | none => exact ih cs1 _ h
        | some z =>
          show Inv10 (updateStep _ _ _ _ (updateCounts _ _ _))
          exact updateStep_inv _ _ _ _ _ (updateCounts_inv _ _ _ h)

theorem runCalls_inv (test : SState → Nat → Int → Bool) (g : Glob)
    (calls : List (Nat × List Nat)) (s : SState)
    (h : Inv10 s) : Inv10 (runCalls test g calls s).2 := by
  induction calls generalizing s with
  | nil => exact h
  | cons call rest ih =>
    obtain ⟨fuel, cs⟩ := call
    exact ih _ (sampleLoop_inv test g fuel cs s h)

/-- C10: at every state a sampler run can reach — any sequence of tuning and
active sampling calls, with any admissibility test and any random draws —
every node's `num_revealed` equals the sum of the values of its label-count
mapping `class_to_instances`. -/
theorem num_revealed_eq_sum_counts (test : SState → Nat → Int → Bool)
    (g : Glob) (tCalls aCalls : List (Nat × List Nat)) :
    Inv10 (runSampler test g tCalls aCalls) := by
  apply runCalls_inv
  show Inv10 (finishTuning _)
  have h1 : Inv10 (mkInit g) := fun v => rfl
  have h2 := runCalls_inv test g tCalls (mkInit g) h1
  intro v
  exact h2 v

theorem dInc_pos (d : List (Int × Nat)) (l : Int)
    (h : ∀ e ∈ d, 0 < e.2) : ∀ e ∈ dInc d l, 0 < e.2 := by
  induction d with
  | nil =>
    intro e he
    simp only [dInc, List.mem_singleton] at he
    subst he
    exact Nat.one_pos
  | cons e0 rest ih =>
    intro e he
    by_cases h0 : e0.1 = l
    · simp only [dInc, if_pos h0, List.mem_cons] at he
      rcases he with rfl | he2
      · exact Nat.succ_pos _
      · exact h e (List.mem_cons_of_mem _ he2)
    · simp only [dInc, if_neg h0, List.mem_cons] at he
      rcases he with rfl | he2
      · exact h e (List.mem_cons_self _ _)
      · exact ih (fun e2 he2b => h e2 (List.mem_cons_of_mem _ he2b)) e he2

theorem updateCounts_pos (path : List Nat) (lab : Int) (s : SState)
    (h : InvPos s) : InvPos (updateCounts path lab s) := by
  induction path generalizing s with
  | nil => exact h
  | cons v0 rest ih =>
    rw [updateCounts_cons]
    apply ih
    intro v
    by_cases hv : v = v0
    · subst hv
      show ∀ e ∈ Function.update s.dCnt v (dInc (s.dCnt v) lab) v, 0 < e.2
      rw [Function.update_same]
      exact dInc_pos _ _ (h v)
    · show ∀ e ∈ Function.update s.dCnt v0 (dInc (s.dCnt v0) lab) v, 0 < e.2
      rw [Function.update_noteq hv]
      exact h v

theorem sampleLoop_pos (test : SState → Nat → Int → Bool) (g : Glob)
    (fuel : Nat) (cs : List Nat) (s : SState)
    (h : InvPos s) : InvPos (sampleLoop test g fuel cs s).2 := by
  induction fuel generalizing cs s with
  | zero => exact h
  | succ f ih =>
    rw [sampleLoop_succ]
    by_cases hempty : s.pruning.isEmpty
    · rw [if_pos hempty]; exact h
    · rw [if_neg hempty]
      split
      · exact h
      · rename_i rev cs1 heq
        exact ih cs1 { s with revealed := rev } h
      · rename_i z rev snd heq
        show InvPos (updateStep _ _ _ _ (updateCounts _ _ _))
        intro v
        rw [show (updateStep test g _ [g.y z] _).dCnt =
          (updateCounts _ (g.y z) { s with revealed := rev }).dCnt from rfl]
        exact updateCounts_pos _ _ { s with revealed := rev } h v

/-- At every reachable state of a sampler run, every stored label count is
positive. -/
theorem counts_positive (test : SState → Nat → Int → Bool) (g : Glob)
    (tCalls aCalls : List (Nat × List Nat)) :
    InvPos (runSampler test g tCalls aCalls) := by
  have hrun : ∀ (calls : List (Nat × List Nat)) (s : SState), InvPos s →
      InvPos (runCalls test g calls s).2 := by
    intro calls
    induction calls with
    | nil => exact fun s h => h
    | cons call rest ih =>
      obtain ⟨fuel, cs⟩ := call
      exact fun s h => ih _ (sampleLoop_pos test g fuel cs s h)
  apply hrun
  show InvPos (finishTuning _)
  have h1 : InvPos (mkInit g) := fun v e he => by cases he
  have h2 := hrun tCalls (mkInit g) h1
  intro v
  exact h2 v

theorem updateBoth_revealed (test : SState → Nat → Int → Bool) (g : Glob)
    (path : List Nat) (lab : Int) (s : SState) :
    (updateStep test g path [lab] (updateCounts path lab s)).revealed =
      s.revealed :=
  ((updateStep_fields _ _ _ _ _).1).trans ((updateCounts_fields _ _ _).1)

theorem sampleLoop_tuning_cases (test : SState → Nat → Int → Bool) (g : Glob)
    (fuel : Nat) (cs : List Nat) (s : SState) (ht : s.tuning = true) :
    (∃ z, (sampleLoop test g fuel cs s).1 = .sampled z ∧ z < g.k ∧
      z ∉ s.revealed ∧
      (sampleLoop test g fuel cs s).2.revealed = insert z s.revealed) ∨
    (isSampledO (sampleLoop test g fuel cs s).1 = false ∧
      (sampleLoop test g fuel cs s).2.revealed = s.revealed) := by
  induction fuel generalizing cs s with
  | zero => exact Or.inr ⟨rfl, rfl⟩
  | succ f ih =>
    rw [sampleLoop_succ]
    by_cases hempty : s.pruning.isEmpty
    · rw [if_pos hempty]; exact Or.inr ⟨rfl, rfl⟩
    · rw [if_neg hempty]
      split
      · exact Or.inr ⟨rfl, rfl⟩
      · rename_i rev cs1 heq
        rw [ht] at heq
        rcases pickAux_tuning_cases _ _ _ _ _ _ heq with ⟨_, hrev⟩ | ⟨z, hz, _⟩
        · have hrev2 : rev = s.revealed := hrev
          subst hrev2
          exact ih cs1 { s with revealed := s.revealed } ht
        · exact absurd hz (by simp)
      · rename_i z rev snd heq
        rw [ht] at heq
        rcases pickAux_tuning_cases _ _ _ _ _ _ heq with ⟨hnone, _⟩ |
          ⟨z2, hz2, hzk, hzrev, hrev⟩
        · exact absurd hnone (by simp)
        · have hzz : z = z2 := Option.some.inj hz2
          subst hzz
          refine Or.inl ⟨z, rfl, hzk, hzrev, ?_⟩
          exact (updateBoth_revealed test g _ (g.y z)
            { s with revealed := rev }).trans hrev

theorem runCalls_length (test : SState → Nat → Int → Bool) (g : Glob)
    (calls : List (Nat × List Nat)) (s : SState) :
    (runCalls test g calls s).1.length = calls.length := by
  induction calls generalizing s with
  | nil => rfl
  | cons call rest ih =>
    obtain ⟨fuel, cs⟩ := call
    show ((sampleLoop test g fuel cs s).1 ::
      (runCalls test g rest (sampleLoop test g fuel cs s).2).1).length =
      rest.length + 1
    rw [List.length_cons, ih _]

theorem runCalls_tuning_invariant (test : SState → Nat → Int → Bool) (g : Glob)
    (calls : List (Nat × List Nat)) (s : SState)
    (ht : s.tuning = true) (hsub : s.revealed ⊆ Finset.range g.k) :
    (runCalls test g calls s).2.tuning = true ∧
    (runCalls test g calls s).2.revealed ⊆ Finset.range g.k ∧
    (runCalls test g calls s).2.revealed.card =
      s.revealed.card + (runCalls test g calls s).1.countP isSampledO := by
  induction calls generalizing s with
  | nil => exact ⟨ht, hsub, rfl⟩
  | cons call rest ih =>
    obtain ⟨fuel, cs⟩ := call
    have htun : (sampleLoop test g fuel cs s).2.tuning = true :=
      (sampleLoop_tuning_flag test g fuel cs s).trans ht
    rcases sampleLoop_tuning_cases test g fuel cs s ht with
      ⟨z, ho, hzk, hznotin, hrev⟩ | ⟨ho, hrev⟩
    · have hsub2 : (sampleLoop test g fuel cs s).2.revealed ⊆
          Finset.range g.k := by
        rw [hrev]
        intro x hx
        rcases Finset.mem_insert.mp hx with rfl | hx2
        · exact Finset.mem_range.mpr hzk
        · exact hsub hx2
      obtain ⟨h1, h2, h3⟩ := ih (sampleLoop test g fuel cs s).2 htun hsub2
      refine ⟨h1, h2, ?_⟩
      have hcard : (sampleLoop test g fuel cs s).2.revealed.card =
          s.revealed.card + 1 := by
        rw [hrev, Finset.card_insert_of_not_mem hznotin]
      show (runCalls test g rest (sampleLoop test g fuel cs s).2).2.revealed.card
        = s.revealed.card + ((sampleLoop test g fuel cs s).1 ::
          (runCalls test g rest (sampleLoop test g fuel cs s).2).1).countP
            isSampledO
      have hone : (if isSampledO (Outcome.sampled z) = true then 1 else 0) = 1 := by
        simp [isSampledO]
      rw [List.countP_cons, h3, hcard, ho, hone]
      omega
    · obtain ⟨h1, h2, h3⟩ := ih (sampleLoop test g fuel cs s).2 htun
        (by rw [hrev]; exact hsub)
      refine ⟨h1, h2, ?_⟩
      show (runCalls test g rest (sampleLoop test g fuel cs s).2).2.revealed.card
        = s.revealed.card + ((sampleLoop test g fuel cs s).1 ::
          (runCalls test g rest (sampleLoop test g fuel cs s).2).1).countP
            isSampledO
      have hzero : (if isSampledO (sampleLoop test g fuel cs s).1 = true
          then 1 else 0) = 0 := by
        rw [ho]
        simp
      rw [List.countP_cons, h3, hrev, hzero]
      omega

/-- C6: when the constructor's `k` tuning cycles (`k` = number of originally
labeled points, with leaf ids `0..k-1`) all complete with a sample, the
revealed set afterwards is exactly the set of labeled ids — every labeled
point is revealed and no unlabeled point ever was (after every prefix of the
tuning cycles the revealed set still contains only labeled ids) — and the
constructor then leaves the tuning state. -/
theorem tuning_phase_complete (test : SState → Nat → Int → Bool) (g : Glob)
    (calls : List (Nat × List Nat)) (hlen : calls.length = g.k)
    (hall : ((runCalls test g calls (mkInit g)).1).all isSampledO = true) :
    (runCalls test g calls (mkInit g)).2.revealed = Finset.range g.k ∧
    (finishTuning (runCalls test g calls (mkInit g)).2).tuning = false ∧
    (∀ j, (runCalls test g (calls.take j) (mkInit g)).2.revealed ⊆
      Finset.range g.k) := by
  obtain ⟨h1, h2, h3⟩ := runCalls_tuning_invariant test g calls (mkInit g) rfl
    (Finset.empty_subset _)
  have hcount : ((runCalls test g calls (mkInit g)).1).countP isSampledO =
      calls.length := by
    rw [← runCalls_length test g calls (mkInit g)]
    exact List.countP_eq_length.mpr (List.all_eq_true.mp hall)
  have hcard : (runCalls test g calls (mkInit g)).2.revealed.card = g.k := by
    rw [h3, hcount, hlen]
    simp [mkInit]
  refine ⟨?_, rfl, ?_⟩
  · apply Finset.eq_of_subset_of_card_le h2
    rw [hcard, Finset.card_range]
  · intro j
    exact (runCalls_tuning_invariant test g (calls.take j) (mkInit g) rfl
      (Finset.empty_subset _)).2.1

/-- Witness for `tuning_phase_complete`: two tuning cycles on the scenario
tree reveal exactly the labeled leaves 0 and 1. -/
theorem tuning_phase_complete_witness :
    ([((1 : Nat), [(0 : Nat)]), (1, [0])].length = gScen.k) ∧
    (runCalls testNone gScen [(1, [0]), (1, [0])] (mkInit gScen)).2.revealed =
      Finset.range gScen.k :=
  ⟨by decide, (tuning_phase_complete testNone gScen [(1, [0]), (1, [0])]
    (by decide) (by decide)).1⟩

/-- Witness for `revealed_admissible_monotone` on a concrete one-call run. -/
theorem revealed_admissible_monotone_witness :
    (mkInit gScen).revealed ⊆
      (runCalls testNone gScen [(1, [0])] (mkInit gScen)).2.revealed :=
  (revealed_admissible_monotone testNone gScen [(1, [0])] (mkInit gScen)).1

/-- Witness for `num_revealed_eq_sum_counts` on a concrete run. -/
theorem num_revealed_eq_sum_counts_witness :
    Inv10 (runSampler testNone gScen [(1, [0])] []) :=
  num_revealed_eq_sum_counts testNone gScen [(1, [0])] []

theorem pruningLeaves_cons (c : BTree × Int) (P : List (BTree × Int)) :
    pruningLeaves (c :: P) = leavesL c.1 ++ pruningLeaves P := by
  simp [pruningLeaves]

/-- If a leaf id occurs exactly once among the concatenated cell leaves,
exactly one cell covers it. -/
theorem exactly_one_cell (P : List (BTree × Int)) (x : Nat)
    (h : (pruningLeaves P).count x = 1) :
    P.countP (fun c => decide (x ∈ leavesL c.1)) = 1 := by
  induction P with
  | nil => simp [pruningLeaves] at h
  | cons c rest ih =>
    rw [pruningLeaves_cons, List.count_append] at h
    rw [List.countP_cons]
    by_cases hx : x ∈ leavesL c.1
    · have h1 : 0 < (leavesL c.1).count x := List.count_pos_iff.mpr hx
      have h2 : (pruningLeaves rest).count x = 0 := by omega
      have h3 : rest.countP (fun c => decide (x ∈ leavesL c.1)) = 0 := by
        rw [List.countP_eq_zero]
        intro c2 hc2
        simp only [decide_eq_true_eq]
        intro hxc2
        have hmem : x ∈ pruningLeaves rest :=
          List.mem_flatMap.mpr ⟨c2, hc2, hxc2⟩
        rw [← List.count_pos_iff] at hmem
        omega
      rw [h3]
      simp [hx]
    · have h1 : (leavesL c.1).count x = 0 := List.count_eq_zero.mpr hx
      rw [h1] at h
      rw [ih (by omega)]
      simp [hx]

/-- C2: at every state a sampler run can reach — any tuning and active
calls, any admissibility test, any random draws — the pruning covers the
full leaf set exactly: the concatenated subtree leaves of its cells are
precisely the tree's leaves, and (when leaf ids are distinct) every leaf
lies in the subtree of exactly one pruning cell — none in zero, none in
two. -/
theorem pruning_partitions_leaves (test : SState → Nat → Int → Bool)
    (g : Glob) (tCalls aCalls : List (Nat × List Nat)) :
    pruningLeaves (runSampler test g tCalls aCalls).pruning = leavesL g.t ∧
    ((leavesL g.t).Nodup → ∀ x ∈ leavesL g.t,
      (runSampler test g tCalls aCalls).pruning.countP
        (fun c => decide (x ∈ leavesL c.1)) = 1) := by
  have h1 : pruningLeaves (runSampler test g tCalls aCalls).pruning =
      leavesL g.t := by
    unfold runSampler
    rw [runCalls_pruningLeaves]
    rw [show (finishTuning (runCalls test g tCalls (mkInit g)).2).pruning =
      (runCalls test g tCalls (mkInit g)).2.pruning from rfl]
    rw [runCalls_pruningLeaves]
    simp [mkInit, pruningLeaves]
  refine ⟨h1, fun hnd x hx => ?_⟩
  apply exactly_one_cell
  rw [h1]
  exact List.count_eq_one_of_mem hnd hx

/-- Witness for `pruning_partitions_leaves`: after one tuning cycle on the
scenario tree, leaf 2 lies in exactly one pruning cell. -/
theorem pruning_partitions_leaves_witness :
    (leavesL gScen.t).Nodup ∧
    (runSampler testNone gScen [(1, [0])] []).pruning.countP
      (fun c => decide ((2 : Nat) ∈ leavesL c.1)) = 1 :=
  ⟨by decide, (pruning_partitions_leaves testNone gScen [(1, [0])] []).2
    (by decide) 2 (by decide)⟩

/-- C7 fails as stated: from `sExh` — where the unrevealed eligible leaves 0
and 1 exist under the pruning cell of node 4 — a selection stream that keeps
drawing the exhausted cell of node 5 makes the retry loop run five
iterations, more than the number of unrevealed leaves (two), without ever
revealing a leaf: the loop is not bounded by the unrevealed-leaf count and
need not end by revealing some leaf. -/
theorem retry_loop_unbounded :
    ((0 : Nat) ∉ sExh.revealed) ∧ ((1 : Nat) ∉ sExh.revealed) ∧
    (sampleLoop testNone gAct 5 [1, 1, 1, 1, 1] sExh).1 = .fuelOut ∧
    (sampleLoop testNone gAct 5 [1, 1, 1, 1, 1] sExh).2.revealed =
      sExh.revealed := by
  decide

theorem pickAux_success (k : Nat) (revealed : Finset Nat) (cs : List Nat)
    (lst acc : List Nat)
    (hlab : ∀ x ∈ lst, x < k → x ∈ revealed)
    (hx : acc ≠ [] ∨ ∃ x ∈ lst, k ≤ x ∧ x ∉ revealed) :
    ∃ z rev cs1, pickAux k false revealed cs lst acc =
      .ok (some z, rev, cs1) := by
  induction lst generalizing acc with
  | nil =>
    rcases hx with hacc | ⟨x, hxm, _⟩
    · have hemp : acc.isEmpty = false := by
        cases acc
        · exact absurd rfl hacc
        · rfl
      refine ⟨acc.getD (((cs.drop 1).headD 0) % acc.length) 0,
        insert (acc.getD ((cs.headD 0) % acc.length) 0) revealed,
        cs.drop 2, ?_⟩
      simp only [pickAux, Bool.false_or, hemp]
      rfl
    · cases hxm
  | cons leaf rest ih =>
    by_cases hmem : leaf ∈ revealed
    · simp only [pickAux, if_pos hmem]
      apply ih
      · intro x hxx hxk
        exact hlab x (List.mem_cons_of_mem _ hxx) hxk
      · rcases hx with hacc | ⟨x, hxmem, hxk, hxrev⟩
        · exact Or.inl hacc
        · rcases List.mem_cons.mp hxmem with rfl | hx2
          · exact absurd hmem hxrev
          · exact Or.inr ⟨x, hx2, hxk, hxrev⟩
    · by_cases hk : leaf < k
      · exact absurd (hlab leaf (List.mem_cons_self _ _) hk) hmem
      · simp only [pickAux, if_neg hmem, if_neg hk]
        apply ih
        · intro x hxx hxk
          exact hlab x (List.mem_cons_of_mem _ hxx) hxk
        · exact Or.inl (by simp)

/-- C7, amended: the retry loop is not bounded by the number of unrevealed
leaves (see `retry_loop_unbounded`); what holds is that the call terminates
by revealing and returning a sample as soon as the selection stream draws a
pruning cell that contains an unrevealed unlabeled leaf and whose labeled
leaves are all revealed — so outside the tuning phase a single suitable
draw suffices. -/
theorem sample_terminates_on_eligible_cell (test : SState → Nat → Int → Bool)
    (g : Glob) (fuel : Nat) (c : Nat) (cs : List Nat) (s : SState)
    (ht : s.tuning = false) (hne : s.pruning.isEmpty = false)
    (hlab : ∀ x ∈ leavesL (s.pruning.getD (c % s.pruning.length)
      (.lf 0, 0)).1, x < g.k → x ∈ s.revealed)
    (hex : ∃ x ∈ leavesL (s.pruning.getD (c % s.pruning.length)
      (.lf 0, 0)).1, g.k ≤ x ∧ x ∉ s.revealed) :
    ∃ z s2, sampleLoop test g (fuel + 1) (c :: cs) s = (.sampled z, s2) := by
  obtain ⟨z, rev, cs1, hpick⟩ := pickAux_success g.k s.revealed cs
    (leavesL (s.pruning.getD (c % s.pruning.length) (.lf 0, 0)).1) []
    hlab (Or.inr hex)
  have hpick2 : pickSampleIdFromNode g.k s.tuning
      ((s.pruning.getD (((c :: cs).headD 0) % s.pruning.length) (.lf 0, 0)).1)
      s.revealed ((c :: cs).drop 1) = .ok (some z, rev, cs1) := by
    rw [ht]
    exact hpick
  rw [sampleLoop_succ, hne]
  rw [if_neg (by simp)]
  rw [hpick2]
  exact ⟨z, _, rfl⟩

/-- Witness for `sample_terminates_on_eligible_cell`: from `sExh`, drawing
the cell of node 4 first terminates at once with a sample. -/
theorem sample_terminates_on_eligible_cell_witness :
    (sExh.tuning = false) ∧
    ∃ z s2, sampleLoop testNone gAct 1 [0] sExh = (.sampled z, s2) :=
  ⟨rfl, sample_terminates_on_eligible_cell testNone gAct 0 0 [] sExh rfl
    (by decide) (by decide) (by decide)⟩

/-- C1 fails on the code: outside tuning, `_pick_sample_id_from_node` calls
`random.choice(sample_ids)` twice — the first draw is added to the revealed
set, but the value returned (whose features, true label and upward-path
counts `sample()` then uses) is a second, independent draw.  With choice
indices 0 then 1 over the unrevealed unlabeled leaves `[0, 1]`, the call
marks leaf 0 revealed yet returns leaf 1 and updates leaf 1's path counts,
so the returned leaf id differs from the leaf id marked revealed. -/
theorem sample_returns_other_than_revealed :
    (sampleLoop testNone gAct 1 [0, 0, 1] sPick).1 = .sampled 1 ∧
    (sampleLoop testNone gAct 1 [0, 0, 1] sPick).2.revealed = {0} ∧
    (1 : Nat) ∉ (sampleLoop testNone gAct 1 [0, 0, 1] sPick).2.revealed ∧
    (sampleLoop testNone gAct 1 [0, 0, 1] sPick).2.nRev 1 = 1 ∧
    (sampleLoop testNone gAct 1 [0, 0, 1] sPick).2.nRev 0 = 0 := by
  decide

end HSamp
